import Mathlib

/-!
Shallow embedding of the two SDL_sound decoders under verification:

* src/decoders/au.c        -- Sun/NeXT .au container decoder (AU_open, AU_read,
                              the ulaw_to_linear table and the in-place loop)
* src/src/SDL_sound_mp3.c  -- MP3 decoder (mp3_read stream bridge, MP3_open
                              duration computation, MP3_read, MP3_rewind)

Machine integers are modelled as Nat (the C unsigned values); the Uint32
sentinel (Uint32)-1 is the literal 4294967295.  The scratch buffer is a byte
memory Nat -> Nat so that writes outside the declared capacity would be
observable.  The underlying SDL_RWops / SDL_IOStream handle is abstracted as a
state type together with a read primitive; concrete instantiations used by the
witnesses are listRead (a finite byte list), errRead (a device whose read
reports the -1 error code) and readChunk (a chunked source that can yield
short reads before it is exhausted).
-/

/-! ## Sample flags (the SOUND_SAMPLEFLAG_ bits, one Bool per bit) -/

structure Flags where
  canseek : Bool
  eof : Bool
  error : Bool
  eagain : Bool
deriving Repr, DecidableEq

/-! ## Byte memory primitives used to model the scratch buffer -/

/-- Write one byte at index i of a byte memory. -/
def wr (m : Nat → Nat) (i v : Nat) : Nat → Nat :=
  fun j => if j = i then v else m j

/-- Write a list of bytes starting at index off (the model of the destination
of SDL_RWread into a buffer offset). -/
def writeList : (Nat → Nat) → Nat → List Nat → (Nat → Nat)
  | m, _, [] => m
  | m, off, b :: bs => writeList (wr m off b) (off + 1) bs

/-! ## AU decoder data (src/decoders/au.c) -/

def AU_ENC_ULAW_8 : Nat := 1
def AU_ENC_LINEAR_8 : Nat := 2
def AU_ENC_LINEAR_16 : Nat := 3

def HDR_SIZE : Nat := 24

/-- The .snd magic, 0x646E732E, as in au.c. -/
def AU_MAGIC : Nat := 0x646E732E

/-- (Uint32)-1, the no-limit sentinel stored in dec->remaining. -/
def UINT32_MAX : Nat := 4294967295

/-- struct audec: remaining byte count and declared encoding. -/
structure AuDec where
  remaining : Nat
  encoding : Nat
deriving Repr, DecidableEq

/-- Result of one SDL_RWread call: either the -1 error code or the bytes
actually delivered (an empty list is the 0 = end-of-data return). -/
inductive RWResult where
  | rwerr : RWResult
  | ok (bytes : List Nat) : RWResult
deriving Repr, DecidableEq

/-- The per-open-sample state visible to AU_read: the abstract stream, the
decoder private struct, the flag word and the session scratch buffer with its
fixed capacity. -/
structure AuState (σ : Type) where
  stream : σ
  dec : AuDec
  flags : Flags
  buffer : Nat → Nat
  buffer_size : Nat

/-- table ulaw_to_linear from au.c, 256 signed 16-bit entries. -/
def ulaw_to_linear : List Int := [
  -32124, -31100, -30076, -29052, -28028, -27004, -25980, -24956,
  -23932, -22908, -21884, -20860, -19836, -18812, -17788, -16764,
  -15996, -15484, -14972, -14460, -13948, -13436, -12924, -12412,
  -11900, -11388, -10876, -10364, -9852, -9340, -8828, -8316,
  -7932, -7676, -7420, -7164, -6908, -6652, -6396, -6140,
  -5884, -5628, -5372, -5116, -4860, -4604, -4348, -4092,
  -3900, -3772, -3644, -3516, -3388, -3260, -3132, -3004,
  -2876, -2748, -2620, -2492, -2364, -2236, -2108, -1980,
  -1884, -1820, -1756, -1692, -1628, -1564, -1500, -1436,
  -1372, -1308, -1244, -1180, -1116, -1052, -988, -924,
  -876, -844, -812, -780, -748, -716, -684, -652,
  -620, -588, -556, -524, -492, -460, -428, -396,
  -372, -356, -340, -324, -308, -292, -276, -260,
  -244, -228, -212, -196, -180, -164, -148, -132,
  -120, -112, -104, -96, -88, -80, -72, -64,
  -56, -48, -40, -32, -24, -16, -8, 0,
  32124, 31100, 30076, 29052, 28028, 27004, 25980, 24956,
  23932, 22908, 21884, 20860, 19836, 18812, 17788, 16764,
  15996, 15484, 14972, 14460, 13948, 13436, 12924, 12412,
  11900, 11388, 10876, 10364, 9852, 9340, 8828, 8316,
  7932, 7676, 7420, 7164, 6908, 6652, 6396, 6140,
  5884, 5628, 5372, 5116, 4860, 4604, 4348, 4092,
  3900, 3772, 3644, 3516, 3388, 3260, 3132, 3004,
  2876, 2748, 2620, 2492, 2364, 2236, 2108, 1980,
  1884, 1820, 1756, 1692, 1628, 1564, 1500, 1436,
  1372, 1308, 1244, 1180, 1116, 1052, 988, 924,
  876, 844, 812, 780, 748, 716, 684, 652,
  620, 588, 556, 524, 492, 460, 428, 396,
  372, 356, 340, 324, 308, 292, 276, 260,
  244, 228, 212, 196, 180, 164, 148, 132,
  120, 112, 104, 96, 88, 80, 72, 64,
  56, 48, 40, 32, 24, 16, 8, 0]

/-- Table lookup ulaw_to_linear[b]. -/
def ulawVal (b : Nat) : Int := ulaw_to_linear.getD b 0

/-- Low byte of the twos-complement 16-bit image of a sample value. -/
def lo16 (v : Int) : Nat := (v % 65536).toNat % 256

/-- High byte of the twos-complement 16-bit image of a sample value. -/
def hi16 (v : Int) : Nat := (v % 65536).toNat / 256

/-- One iteration of the expansion loop of AU_read: read the source byte at
off + i from the CURRENT buffer, look it up, store the 16-bit sample at byte
offsets 2i and 2i+1 (dst[i] = ulaw_to_linear[buf[i]]). -/
def wr16 (off : Nat) (m : Nat → Nat) (i : Nat) : Nat → Nat :=
  wr (wr m (2 * i) (lo16 (ulawVal (m (off + i))))) (2 * i + 1) (hi16 (ulawVal (m (off + i))))

/-- The in-place expansion loop of AU_read: k remaining iterations starting at
loop index i, sources at buffer offset off + i. -/
def expandFrom (off : Nat) : (Nat → Nat) → Nat → Nat → (Nat → Nat)
  | m, _, 0 => m
  | m, i, k + 1 => expandFrom off (wr16 off m i) (i + 1) k

/-- Expansion of a SEPARATE copy of the raw input bytes: each byte becomes the
two bytes of its looked-up 16-bit sample, in order.  This is the from-copy
specification the in-place loop is compared with. -/
def expandSpec : List Nat → List Nat
  | [] => []
  | b :: bs => lo16 (ulawVal b) :: hi16 (ulawVal b) :: expandSpec bs

/-- maxlen as computed by AU_read: the buffer capacity, halved for mu-law,
then capped at dec->remaining. -/
def auMaxlen {σ : Type} (s : AuState σ) : Nat :=
  min (if s.dec.encoding = AU_ENC_ULAW_8 then s.buffer_size / 2 else s.buffer_size)
    s.dec.remaining

/-- buf offset as computed by AU_read: second half of the buffer for mu-law,
start of the buffer otherwise. -/
def auOff {σ : Type} (s : AuState σ) : Nat :=
  if s.dec.encoding = AU_ENC_ULAW_8 then s.buffer_size / 2 else 0

/-- Return value (the Uint32) and successor state of one AU_read call. -/
structure AuReadOut (σ : Type) where
  ret : Nat
  state : AuState σ

/-- AU_read from au.c over an abstract stream read primitive.  The branches
mirror the C: 0 bytes sets EOF; the -1 error code sets ERROR and the Uint32
return is the cast of -1; otherwise remaining is decremented, a short read
sets EAGAIN, and for mu-law the raw bytes (placed in the second half of the
buffer) are expanded in place and twice the raw count is returned. -/
def AU_read {σ : Type} (rwread : σ → Nat → RWResult × σ) (s : AuState σ) : AuReadOut σ :=
  match rwread s.stream (auMaxlen s) with
  | (RWResult.rwerr, st) =>
      ⟨UINT32_MAX,
        { s with stream := st, flags := { s.flags with error := true } }⟩
  | (RWResult.ok bytes, st) =>
      if bytes.length = 0 then
        ⟨0, { s with stream := st, flags := { s.flags with eof := true } }⟩
      else
        let m1 := writeList s.buffer (auOff s) bytes
        let fl := if bytes.length < auMaxlen s then { s.flags with eagain := true } else s.flags
        let dec2 : AuDec := ⟨s.dec.remaining - bytes.length, s.dec.encoding⟩
        if s.dec.encoding = AU_ENC_ULAW_8 then
          ⟨2 * bytes.length,
            { stream := st, dec := dec2, flags := fl,
              buffer := expandFrom (auOff s) m1 0 bytes.length,
              buffer_size := s.buffer_size }⟩
        else
          ⟨bytes.length,
            { stream := st, dec := dec2, flags := fl, buffer := m1,
              buffer_size := s.buffer_size }⟩

/-- A finite in-memory stream: SDL_RWread returns min(requested, available)
bytes and never reports an error. -/
def listRead (s : List Nat) (n : Nat) : RWResult × List Nat :=
  (RWResult.ok (s.take n), s.drop n)

/-- A stream whose read primitive always reports the -1 error code. -/
def errRead (u : Unit) (_ : Nat) : RWResult × Unit :=
  (RWResult.rwerr, u)

/-! ## AU_open (src/decoders/au.c) -/

/-- The 32-bit value of 4 bytes of the header read interpreted through
SDL_SwapLE32 against the little-endian magic constant: byte 0 is least
significant. -/
def getLE32 (b : List Nat) (off : Nat) : Nat :=
  b.getD off 0 + 256 * b.getD (off + 1) 0 + 65536 * b.getD (off + 2) 0 +
    16777216 * b.getD (off + 3) 0

/-- A big-endian header field as read by SDL_SwapBE32: byte 0 is most
significant. -/
def getBE32 (b : List Nat) (off : Nat) : Nat :=
  16777216 * b.getD off 0 + 65536 * b.getD (off + 1) 0 + 256 * b.getD (off + 2) 0 +
    b.getD (off + 3) 0

/-- Resolved sample->actual.format values used by the AU decoder. -/
inductive AuFmt where
  | s8 : AuFmt
  | s16msb : AuFmt
  | s16sys : AuFmt
deriving Repr, DecidableEq

/-- sample->actual as set by AU_open. -/
structure AuFormat where
  format : AuFmt
  rate : Nat
  channels : Nat
deriving Repr, DecidableEq

/-- The two Sound_SetError failure paths of AU_open. -/
inductive AuError where
  | badHeader : AuError
  | unsupportedEncoding : AuError
deriving Repr, DecidableEq

/-- Outcome of AU_open: return 0 with an error recorded, or return 1.  On the
accept branch, none marks a field the C code left unset, i.e. the actual
format not stored and the malloc-ed audec never initialized. -/
inductive AuOpenResult where
  | fail (e : AuError) : AuOpenResult
  | accept (fmt : Option AuFormat) (dec : Option AuDec) : AuOpenResult
deriving Repr, DecidableEq

/-- __Sound_strcasecmp(ext, "au") == 0. -/
def strcaseEqAu (ext : String) : Bool :=
  ext.data.map Char.toLower = ['a', 'u']

/-- AU_open from au.c: fewer than 24 header bytes is a bad-header failure;
with the .snd magic the encoding is validated against the three supported
values and the header fields are parsed; without the magic, extension "au"
(case-insensitive) selects the legacy headerless 8kHz mono mu-law convention;
any other extension falls through BOTH branches of the C if/else-if and the
function still returns 1 with the audec fields uninitialized. -/
def AU_open (stream : List Nat) (ext : String) : AuOpenResult :=
  if stream.length < HDR_SIZE then AuOpenResult.fail AuError.badHeader
  else
    let hdr := stream.take HDR_SIZE
    if getLE32 hdr 0 = AU_MAGIC then
      let enc := getBE32 hdr 12
      if enc = AU_ENC_ULAW_8 then
        AuOpenResult.accept
          (some ⟨AuFmt.s16sys, getBE32 hdr 16, getBE32 hdr 20⟩)
          (some ⟨getBE32 hdr 8, enc⟩)
      else if enc = AU_ENC_LINEAR_8 then
        AuOpenResult.accept
          (some ⟨AuFmt.s8, getBE32 hdr 16, getBE32 hdr 20⟩)
          (some ⟨getBE32 hdr 8, enc⟩)
      else if enc = AU_ENC_LINEAR_16 then
        AuOpenResult.accept
          (some ⟨AuFmt.s16msb, getBE32 hdr 16, getBE32 hdr 20⟩)
          (some ⟨getBE32 hdr 8, enc⟩)
      else AuOpenResult.fail AuError.unsupportedEncoding
    else if strcaseEqAu ext then
      AuOpenResult.accept
        (some ⟨AuFmt.s16sys, 8000, 1⟩)
        (some ⟨UINT32_MAX, AU_ENC_ULAW_8⟩)
    else
      AuOpenResult.accept none none

/-! ## MP3 decoder (src/src/SDL_sound_mp3.c) -/

/-- Per-open-sample state visible to MP3_read / MP3_rewind: the black-box
dr_mp3 context, the flag word, the resolved channel count and the scratch
buffer capacity. -/
structure Mp3State (δ : Type) where
  dr : δ
  flags : Flags
  channels : Nat
  buffer_size : Nat

/-- MP3_read: request (buffer_size / channels) / 4 whole frames from the
decompressor, or EOF into the flags when fewer come back, return
rc * channels * 4 bytes. -/
def MP3_read {δ : Type} (readFrames : δ → Nat → Nat × δ) (s : Mp3State δ) :
    Nat × Mp3State δ :=
  let frames_to_read := s.buffer_size / s.channels / 4
  let p := readFrames s.dr frames_to_read
  let fl := if p.1 < frames_to_read then { s.flags with eof := true } else s.flags
  (p.1 * s.channels * 4, { s with dr := p.2, flags := fl })

/-- MP3_rewind: seek the decompressor to PCM frame 0 and return its success
bit; the sample flag word is not touched. -/
def MP3_rewind {δ : Type} (seekFrame : δ → Nat → Bool × δ) (s : Mp3State δ) :
    Bool × Mp3State δ :=
  let p := seekFrame s.dr 0
  (p.1, { s with dr := p.2 })

/-- The total_time computation of MP3_open: -1 when the decompressor reports
zero PCM frames, otherwise (frames / rate) * 1000 + ((frames % rate) * 1000) / rate
in truncating unsigned arithmetic. -/
def mp3_total_time (frames rate : Nat) : Int :=
  if frames = 0 then -1
  else ((frames / rate) * 1000 + ((frames % rate) * 1000) / rate : Nat)

/-- The stream bridge mp3_read callback: loop calling the underlying read
primitive, accumulating bytes, until the request is filled or a call yields
zero bytes; return everything accumulated. -/
def mp3_read {σ : Type} (read1 : σ → Nat → List Nat × σ) (s : σ) (n : Nat) :
    List Nat × σ :=
  if hn : n = 0 then ([], s)
  else
    let p := read1 s n
    if hz : p.1.length = 0 then ([], p.2)
    else
      let q := mp3_read read1 p.2 (n - p.1.length)
      (p.1 ++ q.1, q.2)
termination_by n
decreasing_by
  exact Nat.sub_lt (Nat.pos_of_ne_zero hn) (Nat.pos_of_ne_zero hz)

/-- A chunked byte source: each call to the read primitive yields at most the
head chunk (truncated to the request), so a call can come back short while
more data is still available; only an exhausted source yields zero bytes. -/
def readChunk : List (List Nat) → Nat → List Nat × List (List Nat)
  | [], _ => ([], [])
  | c :: rest, n => if c.length ≤ n then (c, rest) else (c.take n, c.drop n :: rest)

/-! ## Helper lemmas about the byte memory and the expansion loop -/

/-- Unfolding of wr16: the write at 2i+1, then the write at 2i, else the old
memory. -/
theorem wr16_eq (off : Nat) (m : Nat → Nat) (i t : Nat) :
    wr16 off m i t =
      if t = 2 * i + 1 then hi16 (ulawVal (m (off + i)))
      else if t = 2 * i then lo16 (ulawVal (m (off + i))) else m t := rfl

/-- writeList writes exactly the interval [off, off + length) and leaves every
other cell untouched. -/
theorem writeList_eq (bs : List Nat) : ∀ (m : Nat → Nat) (off t : Nat),
    writeList m off bs t =
      if off ≤ t ∧ t < off + bs.length then bs.getD (t - off) 0 else m t := by
  induction bs with
  | nil =>
    intro m off t
    rw [writeList, if_neg (by simp)]
  | cons b bs ih =>
    intro m off t
    simp only [writeList, List.length_cons]
    rw [ih]
    rcases Nat.lt_trichotomy t off with hlt | heq | hgt
    · rw [if_neg (by omega), if_neg (by omega), wr, if_neg (by omega)]
    · subst heq
      rw [if_neg (by omega), if_pos (by omega), wr, if_pos rfl, Nat.sub_self,
        List.getD_cons_zero]
    · by_cases h2 : t < off + 1 + bs.length
      · rw [if_pos (by omega), if_pos (by omega)]
        have hsub : t - off = (t - (off + 1)) + 1 := by omega
        rw [hsub, List.getD_cons_succ]
      · rw [if_neg (by omega), if_neg (by omega), wr, if_neg (by omega)]

/-- Even positions of the from-copy expansion hold the low bytes. -/
theorem expandSpec_getD_even : ∀ (raw : List Nat) (j : Nat), j < raw.length →
    (expandSpec raw).getD (2 * j) 0 = lo16 (ulawVal (raw.getD j 0)) := by
  intro raw
  induction raw with
  | nil => intro j hj; simp at hj
  | cons b bs ih =>
    intro j hj
    cases j with
    | zero => rfl
    | succ k =>
      have h2 : 2 * (k + 1) = (2 * k + 1) + 1 := by omega
      rw [expandSpec, h2, List.getD_cons_succ, List.getD_cons_succ,
        List.getD_cons_succ]
      exact ih k (by simpa using hj)

/-- Odd positions of the from-copy expansion hold the high bytes. -/
theorem expandSpec_getD_odd : ∀ (raw : List Nat) (j : Nat), j < raw.length →
    (expandSpec raw).getD (2 * j + 1) 0 = hi16 (ulawVal (raw.getD j 0)) := by
  intro raw
  induction raw with
  | nil => intro j hj; simp at hj
  | cons b bs ih =>
    intro j hj
    cases j with
    | zero => rfl
    | succ k =>
      have h2 : 2 * (k + 1) + 1 = ((2 * k + 1) + 1) + 1 := by omega
      rw [expandSpec, h2, List.getD_cons_succ, List.getD_cons_succ,
        List.getD_cons_succ]
      exact ih k (by simpa using hj)

/-- Characterization of the in-place loop: provided every source byte at
off + j (for the iterations still to run) holds the raw input and the raw
segment sits above all write targets (raw.length <= off), the loop fills
byte interval [2i, 2 * raw.length) with the from-copy expansion and leaves
all other cells untouched. -/
theorem expandFrom_eq (off : Nat) (raw : List Nat) (hoff : raw.length ≤ off) :
    ∀ (k i : Nat) (m : Nat → Nat), i + k = raw.length →
    (∀ j, i ≤ j → j < raw.length → m (off + j) = raw.getD j 0) →
    ∀ t, expandFrom off m i k t =
      if 2 * i ≤ t ∧ t < 2 * raw.length then (expandSpec raw).getD t 0 else m t := by
  intro k
  induction k with
  | zero =>
    intro i m hik hm t
    rw [expandFrom, if_neg (by omega)]
  | succ k ih =>
    intro i m hik hm t
    have hi_lt : i < raw.length := by omega
    have hm' : ∀ j, i + 1 ≤ j → j < raw.length → wr16 off m i (off + j) = raw.getD j 0 := by
      intro j hj1 hj2
      rw [wr16_eq, if_neg (by omega), if_neg (by omega)]
      exact hm j (by omega) hj2
    rw [expandFrom, ih (i + 1) (wr16 off m i) (by omega) hm' t]
    have hsrc : m (off + i) = raw.getD i 0 := hm i (Nat.le_refl i) hi_lt
    rcases Nat.lt_trichotomy t (2 * i) with hlt | heq | hgt
    · rw [if_neg (by omega), if_neg (by omega), wr16_eq, if_neg (by omega),
        if_neg (by omega)]
    · subst heq
      rw [if_neg (by omega), if_pos (by omega), wr16_eq, if_neg (by omega),
        if_pos rfl, hsrc, expandSpec_getD_even raw i hi_lt]
    · by_cases hodd : t = 2 * i + 1
      · subst hodd
        rw [if_neg (by omega), if_pos (by omega), wr16_eq, if_pos rfl, hsrc,
          expandSpec_getD_odd raw i hi_lt]
      · by_cases hin : t < 2 * raw.length
        · rw [if_pos (by omega), if_pos (by omega)]
        · rw [if_neg (by omega), if_neg (by omega), wr16_eq, if_neg (by omega),
            if_neg (by omega)]

/-! ## Branch characterizations of AU_read -/

/-- AU_read when the underlying read reports the -1 error code: the ERROR
flag is or-ed in, nothing else changes, and the Uint32 return value is the
cast of -1. -/
theorem AU_read_err {σ : Type} (rwread : σ → Nat → RWResult × σ) (s : AuState σ)
    (st : σ) (hrw : rwread s.stream (auMaxlen s) = (RWResult.rwerr, st)) :
    AU_read rwread s =
      ⟨UINT32_MAX, { s with stream := st, flags := { s.flags with error := true } }⟩ := by
  simp [AU_read, hrw]

/-- AU_read when the underlying read delivers zero bytes: EOF is or-ed in and
the call returns 0 leaving dec and buffer untouched. -/
theorem AU_read_zero {σ : Type} (rwread : σ → Nat → RWResult × σ) (s : AuState σ)
    (st : σ) (hrw : rwread s.stream (auMaxlen s) = (RWResult.ok [], st)) :
    AU_read rwread s =
      ⟨0, { s with stream := st, flags := { s.flags with eof := true } }⟩ := by
  simp [AU_read, hrw]

/-- AU_read on a mu-law sample when the underlying read delivers a nonempty
byte list: raw bytes are placed at the second-half offset, remaining drops by
the raw count, a short read or-s in EAGAIN, the in-place loop runs, and twice
the raw count is returned. -/
theorem AU_read_ulaw_pos {σ : Type} (rwread : σ → Nat → RWResult × σ) (s : AuState σ)
    (st : σ) (bytes : List Nat) (henc : s.dec.encoding = AU_ENC_ULAW_8)
    (hrw : rwread s.stream (auMaxlen s) = (RWResult.ok bytes, st))
    (hn : bytes.length ≠ 0) :
    AU_read rwread s =
      ⟨2 * bytes.length,
        { stream := st,
          dec := ⟨s.dec.remaining - bytes.length, s.dec.encoding⟩,
          flags := if bytes.length < auMaxlen s then { s.flags with eagain := true } else s.flags,
          buffer := expandFrom (auOff s) (writeList s.buffer (auOff s) bytes) 0 bytes.length,
          buffer_size := s.buffer_size }⟩ := by
  simp [AU_read, hrw, hn, henc]

/-- AU_read on a non-mu-law sample when the underlying read delivers a
nonempty byte list: raw bytes are placed at offset 0, remaining drops by the
count, a short read or-s in EAGAIN, and the raw count is returned. -/
theorem AU_read_lin_pos {σ : Type} (rwread : σ → Nat → RWResult × σ) (s : AuState σ)
    (st : σ) (bytes : List Nat) (henc : s.dec.encoding ≠ AU_ENC_ULAW_8)
    (hrw : rwread s.stream (auMaxlen s) = (RWResult.ok bytes, st))
    (hn : bytes.length ≠ 0) :
    AU_read rwread s =
      ⟨bytes.length,
        { stream := st,
          dec := ⟨s.dec.remaining - bytes.length, s.dec.encoding⟩,
          flags := if bytes.length < auMaxlen s then { s.flags with eagain := true } else s.flags,
          buffer := writeList s.buffer (auOff s) bytes,
          buffer_size := s.buffer_size }⟩ := by
  simp [AU_read, hrw, hn, henc]

/-! ## Claim C1 -/

/-- Claim C1 evaluation: a 24-byte stream whose first bytes do not form the
AU magic, opened with the extension hint "txt" (not case-insensitively equal
to "au"), is nevertheless ACCEPTED by AU_open (the C returns 1), falling
through both the magic branch and the legacy-au branch, with the actual
format never stored and the malloc-ed audec never initialized.  The claimed
bad-header failure does not happen. -/
theorem AU_open_nonmagic_foreign_ext_accepts :
    AU_open (List.replicate 24 0) "txt" = AuOpenResult.accept none none ∧
    AU_open (List.replicate 24 0) "txt" ≠ AuOpenResult.fail AuError.badHeader := by
  constructor
  · decide
  · decide

/-! ## Claim C2 -/

/-- Concrete state with END_OF_STREAM already set, and a decompressor whose
frame seek always succeeds. -/
def mp3EofState : Mp3State Unit :=
  { dr := (), flags := { canseek := true, eof := true, error := false, eagain := false },
    channels := 2, buffer_size := 64 }

/-- Seek oracle that always succeeds. -/
def okSeek (d : Unit) (_ : Nat) : Bool × Unit := (true, d)

/-- Claim C2 counterexample: MP3_rewind returns success on a sample whose
END_OF_STREAM flag is set, and afterwards the flag is STILL set: the decoder
rewind does not clear it. -/
theorem MP3_rewind_success_keeps_eof :
    (MP3_rewind okSeek mp3EofState).1 = true ∧
    (MP3_rewind okSeek mp3EofState).2.flags.eof = true := by
  constructor
  · rfl
  · rfl

/-- Claim C2 (amended): decoder read operations never clear a flag once set
(AU_read and MP3_read only or flags in), and MP3_rewind leaves the whole
sample flag word unchanged even when the underlying seek succeeds; clearing
END_OF_STREAM after a rewind is the job of the framework layer, not of the
decoder. -/
theorem decoder_ops_never_clear_flags {σ δ : Type} (rwread : σ → Nat → RWResult × σ)
    (g : δ → Nat → Nat × δ) (sk : δ → Nat → Bool × δ) (s : AuState σ) (t : Mp3State δ) :
    (s.flags.canseek ≤ (AU_read rwread s).state.flags.canseek ∧
      s.flags.eof ≤ (AU_read rwread s).state.flags.eof ∧
      s.flags.error ≤ (AU_read rwread s).state.flags.error ∧
      s.flags.eagain ≤ (AU_read rwread s).state.flags.eagain) ∧
    (t.flags.canseek ≤ (MP3_read g t).2.flags.canseek ∧
      t.flags.eof ≤ (MP3_read g t).2.flags.eof ∧
      t.flags.error ≤ (MP3_read g t).2.flags.error ∧
      t.flags.eagain ≤ (MP3_read g t).2.flags.eagain) ∧
    (MP3_rewind sk t).2.flags = t.flags := by
  refine ⟨?_, ?_, rfl⟩
  · rcases hr : rwread s.stream (auMaxlen s) with ⟨res, st⟩
    cases res with
    | rwerr =>
      rw [AU_read_err rwread s st hr]
      exact ⟨le_refl _, le_refl _, Bool.le_true _, le_refl _⟩
    | ok bytes =>
      by_cases hb : bytes.length = 0
      · have hbe : bytes = [] := List.length_eq_zero.mp hb
        subst hbe
        rw [AU_read_zero rwread s st hr]
        exact ⟨le_refl _, Bool.le_true _, le_refl _, le_refl _⟩
      · by_cases henc : s.dec.encoding = AU_ENC_ULAW_8
        · rw [AU_read_ulaw_pos rwread s st bytes henc hr hb]
          split
          · exact ⟨le_refl _, le_refl _, le_refl _, Bool.le_true _⟩
          · exact ⟨le_refl _, le_refl _, le_refl _, le_refl _⟩
        · rw [AU_read_lin_pos rwread s st bytes henc hr hb]
          split
          · exact ⟨le_refl _, le_refl _, le_refl _, Bool.le_true _⟩
          · exact ⟨le_refl _, le_refl _, le_refl _, le_refl _⟩
  · simp only [MP3_read]
    split
    · exact ⟨le_refl _, Bool.le_true _, le_refl _, le_refl _⟩
    · exact ⟨le_refl _, le_refl _, le_refl _, le_refl _⟩

/-! ## Claim C3 -/

/-- Concrete mu-law state holding the unbounded sentinel in remaining. -/
def auSentinelState : AuState (List Nat) :=
  { stream := [1, 2, 3, 4], dec := ⟨UINT32_MAX, AU_ENC_ULAW_8⟩,
    flags := { canseek := false, eof := false, error := false, eagain := false },
    buffer := fun _ => 0, buffer_size := 8 }

/-- Claim C3 counterexample: a successful nonzero AU_read on a sample whose
remaining field holds the unbounded sentinel (Uint32)-1 = 4294967295 is NOT a
no-op on that field: dec->remaining -= ret runs unconditionally, leaving
4294967291 after 4 raw bytes. -/
theorem AU_read_sentinel_not_noop :
    (AU_read listRead auSentinelState).ret = 8 ∧
    auSentinelState.dec.remaining = 4294967295 ∧
    (AU_read listRead auSentinelState).state.dec.remaining = 4294967291 := by
  refine ⟨?_, rfl, ?_⟩
  · decide
  · decide

/-- Claim C3 (amended): on every successful nonzero AU_read the remaining
field decreases by exactly the number of raw bytes consumed, in the bounded
case and in the unbounded-sentinel case alike (the sentinel is just a very
large bound, not a literal no-op). -/
theorem AU_read_remaining_decreases {σ : Type} (rwread : σ → Nat → RWResult × σ)
    (s : AuState σ) (st : σ) (bytes : List Nat)
    (hrw : rwread s.stream (auMaxlen s) = (RWResult.ok bytes, st))
    (hlen : bytes.length ≤ auMaxlen s)
    (hn : bytes.length ≠ 0) :
    bytes.length ≤ s.dec.remaining ∧
    (AU_read rwread s).state.dec.remaining + bytes.length = s.dec.remaining := by
  have hrem : bytes.length ≤ s.dec.remaining :=
    le_trans hlen (Nat.min_le_right _ _)
  refine ⟨hrem, ?_⟩
  by_cases henc : s.dec.encoding = AU_ENC_ULAW_8
  · rw [AU_read_ulaw_pos rwread s st bytes henc hrw hn]
    exact Nat.sub_add_cancel hrem
  · rw [AU_read_lin_pos rwread s st bytes henc hrw hn]
    exact Nat.sub_add_cancel hrem

/-- Concrete bounded linear-8 state for the C3 witness. -/
def auC3State : AuState (List Nat) :=
  { stream := [9, 9], dec := ⟨10, AU_ENC_LINEAR_8⟩,
    flags := { canseek := false, eof := false, error := false, eagain := false },
    buffer := fun _ => 0, buffer_size := 16 }

/-- Claim C3 witness: the amended theorem applied to a concrete bounded read
of 2 bytes out of remaining = 10. -/
theorem AU_read_remaining_decreases_witness :
    listRead auC3State.stream (auMaxlen auC3State) = (RWResult.ok [9, 9], []) ∧
    ([9, 9] : List Nat).length ≤ auMaxlen auC3State ∧
    ([9, 9] : List Nat).length ≠ 0 ∧
    (([9, 9] : List Nat).length ≤ auC3State.dec.remaining ∧
      (AU_read listRead auC3State).state.dec.remaining + ([9, 9] : List Nat).length =
        auC3State.dec.remaining) :=
  ⟨by decide, by decide, by decide,
    AU_read_remaining_decreases listRead auC3State [] [9, 9] (by decide) (by decide) (by decide)⟩

/-! ## Claim C4 -/

/-- Concrete bounded state whose header declared 10 data bytes but whose
stream actually holds only 3. -/
def auC4State : AuState (List Nat) :=
  { stream := [1, 2, 3], dec := ⟨10, AU_ENC_LINEAR_8⟩,
    flags := { canseek := false, eof := false, error := false, eagain := false },
    buffer := fun _ => 0, buffer_size := 16 }

/-- Claim C4 counterexample: on a truncated stream (declared data_size 10,
only 3 bytes present) the first AU_read consumes the 3 bytes, the second
sets the first END_OF_STREAM flag while remaining is still 7, not 0. -/
theorem AU_read_truncated_eof_with_remaining :
    (AU_read listRead auC4State).state.flags.eof = false ∧
    (AU_read listRead (AU_read listRead auC4State).state).state.flags.eof = true ∧
    (AU_read listRead (AU_read listRead auC4State).state).state.dec.remaining = 7 := by
  refine ⟨?_, ?_, ?_⟩
  · decide
  · decide
  · decide

/-- Claim C4 (amended): in the bounded case no single AU_read consumes more
raw bytes than remaining held before the call and remaining decreases by
exactly the consumed count (so it never underflows); and PROVIDED the
underlying stream supplies at least remaining bytes, a read sets the first
END_OF_STREAM flag exactly when remaining is 0 (and remaining is then still
0 after the call).  On a truncated stream EOF can arrive with remaining
positive. -/
theorem AU_read_bounded_invariant (s : AuState (List Nat))
    (heof : s.flags.eof = false)
    (hsuff : s.dec.remaining ≤ s.stream.length)
    (hcap : 0 < (if s.dec.encoding = AU_ENC_ULAW_8 then s.buffer_size / 2 else s.buffer_size)) :
    min (auMaxlen s) s.stream.length ≤ s.dec.remaining ∧
    (AU_read listRead s).state.dec.remaining + min (auMaxlen s) s.stream.length =
      s.dec.remaining ∧
    ((AU_read listRead s).state.flags.eof = true ↔ s.dec.remaining = 0) := by
  have hml : auMaxlen s ≤ s.dec.remaining := Nat.min_le_right _ _
  have hconsumed : min (auMaxlen s) s.stream.length ≤ s.dec.remaining :=
    le_trans (Nat.min_le_left _ _) hml
  refine ⟨hconsumed, ?_, ?_⟩ <;>
  · by_cases hrem : s.dec.remaining = 0
    · have hm0 : auMaxlen s = 0 := by
        simp [auMaxlen, hrem]
      have hrw : listRead s.stream (auMaxlen s) = (RWResult.ok [], s.stream) := by
        simp [listRead, hm0]
      rw [AU_read_zero listRead s s.stream hrw]
      simp [hm0, hrem]
    · have hmpos : 0 < auMaxlen s := by
        rw [auMaxlen]
        exact Nat.lt_min.mpr ⟨hcap, Nat.pos_of_ne_zero hrem⟩
      have hmlen : auMaxlen s ≤ s.stream.length := le_trans hml hsuff
      have hlen : (s.stream.take (auMaxlen s)).length = auMaxlen s := by
        rw [List.length_take]
        exact Nat.min_eq_left hmlen
      have hminl : min (auMaxlen s) s.stream.length = auMaxlen s :=
        Nat.min_eq_left hmlen
      have hn : (s.stream.take (auMaxlen s)).length ≠ 0 := by
        rw [hlen]
        omega
      have hrw : listRead s.stream (auMaxlen s) =
          (RWResult.ok (s.stream.take (auMaxlen s)), s.stream.drop (auMaxlen s)) := rfl
      by_cases henc : s.dec.encoding = AU_ENC_ULAW_8
      · rw [AU_read_ulaw_pos listRead s (s.stream.drop (auMaxlen s))
          (s.stream.take (auMaxlen s)) henc hrw hn]
        simp only [hlen, hminl]
        first
        | exact Nat.sub_add_cancel hml
        | · constructor
            · intro hcontra
              exfalso
              revert hcontra
              split <;> simp [heof]
            · intro h0
              omega
      · rw [AU_read_lin_pos listRead s (s.stream.drop (auMaxlen s))
          (s.stream.take (auMaxlen s)) henc hrw hn]
        simp only [hlen, hminl]
        first
        | exact Nat.sub_add_cancel hml
        | · constructor
            · intro hcontra
              exfalso
              revert hcontra
              split <;> simp [heof]
            · intro h0
              omega

/-- Concrete well-supplied bounded state for the C4 witness. -/
def auC4WState : AuState (List Nat) :=
  { stream := [5, 6, 7, 8, 9], dec := ⟨4, AU_ENC_LINEAR_16⟩,
    flags := { canseek := false, eof := false, error := false, eagain := false },
    buffer := fun _ => 0, buffer_size := 16 }

/-- Claim C4 witness: the amended invariant applied to a concrete bounded
read, remaining = 4 with 5 stream bytes available. -/
theorem AU_read_bounded_invariant_witness :
    auC4WState.flags.eof = false ∧
    auC4WState.dec.remaining ≤ auC4WState.stream.length ∧
    0 < (if auC4WState.dec.encoding = AU_ENC_ULAW_8 then auC4WState.buffer_size / 2
      else auC4WState.buffer_size) ∧
    (min (auMaxlen auC4WState) auC4WState.stream.length ≤ auC4WState.dec.remaining ∧
      (AU_read listRead auC4WState).state.dec.remaining +
        min (auMaxlen auC4WState) auC4WState.stream.length = auC4WState.dec.remaining ∧
      ((AU_read listRead auC4WState).state.flags.eof = true ↔
        auC4WState.dec.remaining = 0)) :=
  ⟨rfl, by decide, by decide,
    AU_read_bounded_invariant auC4WState rfl (by decide) (by decide)⟩

/-! ## Claim C5 -/

/-- Claim C5: the MP3_open duration computation returns -1 (unknown) for a
zero total PCM frame count; otherwise it computes
floor(frames/rate)*1000 + floor((frames mod rate)*1000/rate) in truncating
integer arithmetic, which for positive rate equals the exact truncated
millisecond count floor(frames*1000/rate); in particular frames = 44100 at
rate = 44100 gives exactly 1000. -/
theorem mp3_total_time_correct :
    (∀ rate, mp3_total_time 0 rate = -1) ∧
    (∀ frames rate, frames ≠ 0 →
      mp3_total_time frames rate =
        (((frames / rate) * 1000 + ((frames % rate) * 1000) / rate : Nat) : Int)) ∧
    (∀ frames rate, frames ≠ 0 → 0 < rate →
      mp3_total_time frames rate = (((frames * 1000) / rate : Nat) : Int)) ∧
    mp3_total_time 44100 44100 = 1000 := by
  refine ⟨fun rate => rfl, fun frames rate hf => by rw [mp3_total_time, if_neg hf],
    ?_, by decide⟩
  intro frames rate hf hr
  rw [mp3_total_time, if_neg hf]
  have hsplit : frames * 1000 = rate * ((frames / rate) * 1000) + (frames % rate) * 1000 := by
    conv_lhs => rw [← Nat.div_add_mod frames rate]
    ring
  rw [hsplit, Nat.mul_add_div hr]

/-- Claim C5 witness: the closed-form conjunct applied at frames = rate =
44100, where the hypotheses hold and the result is 1000 ms. -/
theorem mp3_total_time_correct_witness :
    (44100 : Nat) ≠ 0 ∧ (0 : Nat) < 44100 ∧
    mp3_total_time 44100 44100 = (((44100 * 1000) / 44100 : Nat) : Int) :=
  ⟨by decide, by decide, mp3_total_time_correct.2.2.1 44100 44100 (by decide) (by decide)⟩

/-! ## Claim C6 -/

/-- Claim C6: on a mu-law sample, AU_read requests at most half the buffer
capacity of raw bytes (the request is min(capacity/2, remaining)), places
them at the second-half offset, maps every raw byte through the fixed
256-entry ulaw_to_linear table into one 16-bit sample stored at byte offsets
2i and 2i+1, and returns exactly twice the raw byte count. -/
theorem AU_read_ulaw_correct {σ : Type} (rwread : σ → Nat → RWResult × σ)
    (s : AuState σ) (st : σ) (bytes : List Nat)
    (henc : s.dec.encoding = AU_ENC_ULAW_8)
    (hrw : rwread s.stream (auMaxlen s) = (RWResult.ok bytes, st))
    (hlen : bytes.length ≤ auMaxlen s)
    (hn : bytes.length ≠ 0) :
    auMaxlen s ≤ s.buffer_size / 2 ∧
    (AU_read rwread s).ret = 2 * bytes.length ∧
    (∀ i, i < bytes.length →
      (AU_read rwread s).state.buffer (2 * i) = lo16 (ulawVal (bytes.getD i 0)) ∧
      (AU_read rwread s).state.buffer (2 * i + 1) = hi16 (ulawVal (bytes.getD i 0))) := by
  have hcap : auMaxlen s ≤ s.buffer_size / 2 := by
    rw [auMaxlen, if_pos henc]
    exact Nat.min_le_left _ _
  have hoff : auOff s = s.buffer_size / 2 := by
    rw [auOff, if_pos henc]
  have hbytes : bytes.length ≤ auOff s := by
    rw [hoff]
    exact le_trans hlen hcap
  rw [AU_read_ulaw_pos rwread s st bytes henc hrw hn]
  refine ⟨hcap, rfl, ?_⟩
  dsimp only
  have hsrc : ∀ j, 0 ≤ j → j < bytes.length →
      writeList s.buffer (auOff s) bytes (auOff s + j) = bytes.getD j 0 := by
    intro j _ hj
    rw [writeList_eq, if_pos ⟨Nat.le_add_right _ _, by omega⟩, Nat.add_sub_cancel_left]
  have hexp := expandFrom_eq (auOff s) bytes hbytes bytes.length 0
    (writeList s.buffer (auOff s) bytes) (by omega) hsrc
  intro i hi
  constructor
  · rw [hexp (2 * i), if_pos ⟨by omega, by omega⟩]
    exact expandSpec_getD_even bytes i hi
  · rw [hexp (2 * i + 1), if_pos ⟨by omega, by omega⟩]
    exact expandSpec_getD_odd bytes i hi

/-- Concrete mu-law state for the C6 witness: capacity 8, so raw reads are
capped at 4; the stream yields 3 bytes 0, 255, 128. -/
def auC6State : AuState (List Nat) :=
  { stream := [0, 255, 128], dec := ⟨100, AU_ENC_ULAW_8⟩,
    flags := { canseek := false, eof := false, error := false, eagain := false },
    buffer := fun _ => 0, buffer_size := 8 }

/-- Claim C6 witness: the mu-law read theorem applied to a concrete 3-byte
read, checked at loop index 0. -/
theorem AU_read_ulaw_correct_witness :
    auC6State.dec.encoding = AU_ENC_ULAW_8 ∧
    listRead auC6State.stream (auMaxlen auC6State) = (RWResult.ok [0, 255, 128], []) ∧
    ([0, 255, 128] : List Nat).length ≤ auMaxlen auC6State ∧
    ([0, 255, 128] : List Nat).length ≠ 0 ∧
    auMaxlen auC6State ≤ auC6State.buffer_size / 2 ∧
    (AU_read listRead auC6State).ret = 2 * ([0, 255, 128] : List Nat).length ∧
    (AU_read listRead auC6State).state.buffer 0 = lo16 (ulawVal 0) ∧
    (AU_read listRead auC6State).state.buffer 1 = hi16 (ulawVal 0) := by
  have h := AU_read_ulaw_correct listRead auC6State [] [0, 255, 128]
    (by decide) (by decide) (by decide) (by decide)
  have h0 := h.2.2 0 (by decide)
  exact ⟨rfl, by decide, by decide, by decide, h.1, h.2.1, h0.1, h0.2⟩

/-! ## Claim C7 -/

/-- Claim C7: MP3_read asks the decompressor for exactly
(buffer_size / channels) / 4 whole frames, returns rc * channels * 4 bytes
where rc is the frame count the decompressor delivered, and (starting from a
clear flag) sets END_OF_STREAM exactly when rc is short of the request. -/
theorem MP3_read_correct {δ : Type} (g : δ → Nat → Nat × δ) (t : Mp3State δ)
    (heof : t.flags.eof = false) :
    (MP3_read g t).1 = (g t.dr (t.buffer_size / t.channels / 4)).1 * t.channels * 4 ∧
    ((MP3_read g t).2.flags.eof = true ↔
      (g t.dr (t.buffer_size / t.channels / 4)).1 < t.buffer_size / t.channels / 4) := by
  refine ⟨rfl, ?_⟩
  simp only [MP3_read]
  split
  · simpa
  · next h => simp [heof, h]

/-- Decompressor oracle that always delivers one frame fewer than asked. -/
def shortFrames (d : Unit) (k : Nat) : Nat × Unit := (k - 1, d)

/-- Concrete MP3 state for the C7 witness: 64-byte buffer, 2 channels, so 8
frames are requested and 7 delivered. -/
def mp3C7State : Mp3State Unit :=
  { dr := (), flags := { canseek := true, eof := false, error := false, eagain := false },
    channels := 2, buffer_size := 64 }

/-- Claim C7 witness: the MP3_read theorem at the concrete short-delivery
oracle: 7 of 8 requested frames produce 56 bytes and set END_OF_STREAM. -/
theorem MP3_read_correct_witness :
    mp3C7State.flags.eof = false ∧
    ((MP3_read shortFrames mp3C7State).1 =
        (shortFrames mp3C7State.dr (mp3C7State.buffer_size / mp3C7State.channels / 4)).1 *
          mp3C7State.channels * 4 ∧
      ((MP3_read shortFrames mp3C7State).2.flags.eof = true ↔
        (shortFrames mp3C7State.dr (mp3C7State.buffer_size / mp3C7State.channels / 4)).1 <
          mp3C7State.buffer_size / mp3C7State.channels / 4)) :=
  ⟨rfl, MP3_read_correct shortFrames mp3C7State rfl⟩

/-! ## Claim C8 -/

/-- Claim C8: over any chunked source whose chunks are nonempty (so a zero
return happens only at true end-of-data), the stream bridge loop accumulates
partial short reads and returns exactly the first min(n, total) bytes of the
source: a short chunk never terminates the loop by itself, and the returned
total equals the bytes placed into the output. -/
theorem mp3_read_accumulates (chunks : List (List Nat)) (n : Nat)
    (h : ∀ c ∈ chunks, c ≠ []) :
    (mp3_read readChunk chunks n).1 = chunks.flatten.take n ∧
    (mp3_read readChunk chunks n).1.length = min n chunks.flatten.length := by
  have hmain : (mp3_read readChunk chunks n).1 = chunks.flatten.take n := by
    induction chunks generalizing n with
    | nil =>
      by_cases hn : n = 0
      · simp [mp3_read, hn]
      · simp [mp3_read, hn, readChunk]
    | cons c rest ih =>
      have hc : c ≠ [] := h c (List.mem_cons_self c rest)
      have hcl : c.length ≠ 0 := fun hx => hc (List.length_eq_zero.mp hx)
      have hrest : ∀ x ∈ rest, x ≠ [] := fun x hx => h x (List.mem_cons_of_mem c hx)
      by_cases hn : n = 0
      · simp [mp3_read, hn]
      · rw [mp3_read]
        simp only [dif_neg hn]
        by_cases hle : c.length ≤ n
        · have hp : readChunk (c :: rest) n = (c, rest) := by
            simp [readChunk, hle]
          rw [hp]
          simp only [hcl, dite_false]
          rw [ih (n - c.length) hrest, List.flatten_cons, List.take_append_eq_append_take,
            List.take_of_length_le hle]
        · have hp : readChunk (c :: rest) n = (c.take n, c.drop n :: rest) := by
            simp [readChunk, hle]
          rw [hp]
          have hlen2 : (c.take n).length = n := by
            rw [List.length_take]
            omega
          have hnz : ¬((c.take n).length = 0) := by omega
          simp only [hnz, dite_false, hlen2, Nat.sub_self]
          rw [mp3_read]
          simp only [dite_true]
          rw [List.flatten_cons, List.take_append_eq_append_take]
          have h0 : n - c.length = 0 := by omega
          rw [h0, List.take_zero, List.append_nil, dif_neg hn]
  refine ⟨hmain, ?_⟩
  rw [hmain, List.length_take]

/-- Claim C8 witness: a concrete chunked source delivering 2, then 1, then 3
bytes; a request for 4 bytes spans three underlying calls, the 2-byte and
1-byte short deliveries do not stop the loop, and exactly 4 bytes come
back. -/
theorem mp3_read_accumulates_witness :
    (∀ c ∈ ([[1, 2], [3], [4, 5, 6]] : List (List Nat)), c ≠ []) ∧
    ((mp3_read readChunk [[1, 2], [3], [4, 5, 6]] 4).1 =
        ([[1, 2], [3], [4, 5, 6]] : List (List Nat)).flatten.take 4 ∧
      (mp3_read readChunk [[1, 2], [3], [4, 5, 6]] 4).1.length =
        min 4 ([[1, 2], [3], [4, 5, 6]] : List (List Nat)).flatten.length) :=
  ⟨by decide, mp3_read_accumulates [[1, 2], [3], [4, 5, 6]] 4 (by decide)⟩

/-! ## Claim C9 -/

/-- Concrete linear-16 state whose stream read reports the -1 error code. -/
def auErrState : AuState Unit :=
  { stream := (), dec := ⟨1000, AU_ENC_LINEAR_16⟩,
    flags := { canseek := false, eof := false, error := false, eagain := false },
    buffer := fun _ => 0, buffer_size := 16 }

/-- Claim C9 counterexample: when the underlying stream read reports the -1
error code, AU_read returns the Uint32 cast of -1, 4294967295, which vastly
exceeds the 16-byte buffer capacity; the reported byte count is therefore
not always bounded by the capacity (the ERROR flag is the only indication). -/
theorem AU_read_ioerr_ret_exceeds_capacity :
    (AU_read errRead auErrState).ret = 4294967295 ∧
    auErrState.buffer_size = 16 ∧
    (AU_read errRead auErrState).state.flags.error = true := by
  refine ⟨?_, rfl, ?_⟩
  · rfl
  · rfl

/-- Claim C9 (amended): for every AU_read whose underlying read does not
report an I/O error, the reported byte count is at most the buffer capacity
and no buffer cell at or beyond the capacity is written (mu-law raw reads
are capped at half the capacity so the doubled output fits; linear reads at
the full capacity); and MP3_read, under the decompressor contract that at
most the requested frames are delivered, reports at most
capacity bytes since frames * channels * 4 <= capacity.  An AU_read that
hits an I/O error writes nothing but reports the Uint32 cast of -1. -/
theorem read_reports_within_capacity {σ δ : Type} (rwread : σ → Nat → RWResult × σ)
    (s : AuState σ) (st : σ) (bytes : List Nat)
    (g : δ → Nat → Nat × δ) (t : Mp3State δ)
    (hrw : rwread s.stream (auMaxlen s) = (RWResult.ok bytes, st))
    (hlen : bytes.length ≤ auMaxlen s)
    (hg : (g t.dr (t.buffer_size / t.channels / 4)).1 ≤ t.buffer_size / t.channels / 4) :
    (AU_read rwread s).ret ≤ s.buffer_size ∧
    (∀ j, s.buffer_size ≤ j → (AU_read rwread s).state.buffer j = s.buffer j) ∧
    (MP3_read g t).1 ≤ t.buffer_size := by
  have hmp3 : (MP3_read g t).1 ≤ t.buffer_size := by
    have h1 : (MP3_read g t).1 =
        (g t.dr (t.buffer_size / t.channels / 4)).1 * t.channels * 4 := rfl
    rw [h1]
    calc (g t.dr (t.buffer_size / t.channels / 4)).1 * t.channels * 4
        ≤ (t.buffer_size / t.channels / 4) * t.channels * 4 :=
          Nat.mul_le_mul_right 4 (Nat.mul_le_mul_right t.channels hg)
      _ = ((t.buffer_size / t.channels / 4) * 4) * t.channels := by ring
      _ ≤ (t.buffer_size / t.channels) * t.channels :=
          Nat.mul_le_mul_right t.channels (Nat.div_mul_le_self _ 4)
      _ ≤ t.buffer_size := Nat.div_mul_le_self _ _
  by_cases hb : bytes.length = 0
  · have hbe : bytes = [] := List.length_eq_zero.mp hb
    subst hbe
    rw [AU_read_zero rwread s st hrw]
    exact ⟨Nat.zero_le _, fun j _ => rfl, hmp3⟩
  · by_cases henc : s.dec.encoding = AU_ENC_ULAW_8
    · have hlen2 : bytes.length ≤ s.buffer_size / 2 := by
        have hx := hlen
        rw [auMaxlen, if_pos henc] at hx
        exact le_trans hx (Nat.min_le_left _ _)
      have hoff : auOff s = s.buffer_size / 2 := by
        rw [auOff, if_pos henc]
      have hbytes : bytes.length ≤ auOff s := by omega
      have hsrc : ∀ j, 0 ≤ j → j < bytes.length →
          writeList s.buffer (auOff s) bytes (auOff s + j) = bytes.getD j 0 := by
        intro j _ hj
        rw [writeList_eq, if_pos ⟨Nat.le_add_right _ _, by omega⟩, Nat.add_sub_cancel_left]
      have hexp := expandFrom_eq (auOff s) bytes hbytes bytes.length 0
        (writeList s.buffer (auOff s) bytes) (by omega) hsrc
      rw [AU_read_ulaw_pos rwread s st bytes henc hrw hb]
      refine ⟨?_, ?_, hmp3⟩
      · dsimp only
        omega
      · dsimp only
        intro j hj
        rw [hexp j, if_neg (by omega), writeList_eq, if_neg (by omega)]
    · have hlen2 : bytes.length ≤ s.buffer_size := by
        have hx := hlen
        rw [auMaxlen, if_neg henc] at hx
        exact le_trans hx (Nat.min_le_left _ _)
      have hoff : auOff s = 0 := by
        rw [auOff, if_neg henc]
      rw [AU_read_lin_pos rwread s st bytes henc hrw hb]
      refine ⟨?_, ?_, hmp3⟩
      · exact hlen2
      · dsimp only
        intro j hj
        rw [writeList_eq, if_neg (by omega)]

/-- Concrete mu-law state for the C9 witness: capacity 10, remaining 3. -/
def auC9State : AuState (List Nat) :=
  { stream := [7, 7, 7, 7], dec := ⟨3, AU_ENC_ULAW_8⟩,
    flags := { canseek := false, eof := false, error := false, eagain := false },
    buffer := fun _ => 1, buffer_size := 10 }

/-- Decompressor oracle that always delivers exactly the requested frames. -/
def fullFrames (d : Unit) (k : Nat) : Nat × Unit := (k, d)

/-- Concrete MP3 state for the C9 witness. -/
def mp3C9State : Mp3State Unit :=
  { dr := (), flags := { canseek := true, eof := false, error := false, eagain := false },
    channels := 2, buffer_size := 64 }

/-- Claim C9 witness: the capacity-bound theorem at a concrete mu-law read
(3 raw bytes, 6 bytes reported, capacity 10, cell 12 untouched) and a
concrete full MP3 delivery (8 frames, 64 = capacity bytes reported). -/
theorem read_reports_within_capacity_witness :
    listRead auC9State.stream (auMaxlen auC9State) = (RWResult.ok [7, 7, 7], [7]) ∧
    ([7, 7, 7] : List Nat).length ≤ auMaxlen auC9State ∧
    (fullFrames mp3C9State.dr (mp3C9State.buffer_size / mp3C9State.channels / 4)).1 ≤
      mp3C9State.buffer_size / mp3C9State.channels / 4 ∧
    (AU_read listRead auC9State).ret ≤ auC9State.buffer_size ∧
    (AU_read listRead auC9State).state.buffer 12 = auC9State.buffer 12 ∧
    (MP3_read fullFrames mp3C9State).1 ≤ mp3C9State.buffer_size := by
  have h := read_reports_within_capacity listRead auC9State [7] [7, 7, 7]
    fullFrames mp3C9State (by decide) (by decide) (by decide)
  exact ⟨by decide, by decide, by decide, h.1, h.2.1 12 (by decide), h.2.2⟩

/-! ## Claim C10 -/

/-- Concrete mu-law state for the C10 counterexample: capacity 8 (second-half
base 4), all buffer cells initially 77, one raw byte 5 delivered. -/
def auC10State : AuState (List Nat) :=
  { stream := [5], dec := ⟨100, AU_ENC_ULAW_8⟩,
    flags := { canseek := false, eof := false, error := false, eagain := false },
    buffer := fun _ => 77, buffer_size := 8 }

/-- Claim C10 counterexample: with n = 1 raw byte and loop index i = 0 the
source byte of iteration i sits at offset capacity/2 + i = 4, not at offset
n + i = 1: cell 1 holds 77 before and after the raw placement, and had the
expansion read its source there, output sample 0 would be the expansion of
77; it is the expansion of 5, the byte at offset 4. -/
theorem AU_read_ulaw_source_not_at_n_plus_i :
    (AU_read listRead auC10State).ret = 2 ∧
    auOff auC10State = 4 ∧
    writeList auC10State.buffer (auOff auC10State) [5] (1 + 0) = 77 ∧
    writeList auC10State.buffer (auOff auC10State) [5] (4 + 0) = 5 ∧
    (AU_read listRead auC10State).state.buffer 0 = lo16 (ulawVal 5) ∧
    lo16 (ulawVal 5) ≠ lo16 (ulawVal 77) := by
  refine ⟨?_, rfl, ?_, ?_, ?_, ?_⟩
  · decide
  · decide
  · decide
  · decide
  · decide

/-- Claim C10 (amended): in the mu-law in-place expansion the raw bytes live
at offsets h + i with h = capacity/2 >= n, every 16-bit write to offsets 2i
and 2i+1 stays below the not-yet-read sources, and therefore the in-place
forward expansion produces output byte-identical to expanding from a
separate copy of the raw input bytes. -/
theorem AU_read_ulaw_inplace_eq_copy {σ : Type} (rwread : σ → Nat → RWResult × σ)
    (s : AuState σ) (st : σ) (bytes : List Nat)
    (henc : s.dec.encoding = AU_ENC_ULAW_8)
    (hrw : rwread s.stream (auMaxlen s) = (RWResult.ok bytes, st))
    (hlen : bytes.length ≤ auMaxlen s)
    (hn : bytes.length ≠ 0) :
    ∀ u, u < 2 * bytes.length →
      (AU_read rwread s).state.buffer u = (expandSpec bytes).getD u 0 := by
  have hlen2 : bytes.length ≤ s.buffer_size / 2 := by
    have hx := hlen
    rw [auMaxlen, if_pos henc] at hx
    exact le_trans hx (Nat.min_le_left _ _)
  have hoff : auOff s = s.buffer_size / 2 := by
    rw [auOff, if_pos henc]
  have hbytes : bytes.length ≤ auOff s := by omega
  have hsrc : ∀ j, 0 ≤ j → j < bytes.length →
      writeList s.buffer (auOff s) bytes (auOff s + j) = bytes.getD j 0 := by
    intro j _ hj
    rw [writeList_eq, if_pos ⟨Nat.le_add_right _ _, by omega⟩, Nat.add_sub_cancel_left]
  have hexp := expandFrom_eq (auOff s) bytes hbytes bytes.length 0
    (writeList s.buffer (auOff s) bytes) (by omega) hsrc
  rw [AU_read_ulaw_pos rwread s st bytes henc hrw hn]
  dsimp only
  intro u hu
  rw [hexp u, if_pos ⟨by omega, hu⟩]

/-- Concrete mu-law state for the C10 witness: capacity 6, remaining 2,
source bytes 255 and 0. -/
def auC10WState : AuState (List Nat) :=
  { stream := [255, 0, 9], dec := ⟨2, AU_ENC_ULAW_8⟩,
    flags := { canseek := false, eof := false, error := false, eagain := false },
    buffer := fun _ => 3, buffer_size := 6 }

/-- Claim C10 witness: the in-place/from-copy equality at a concrete 2-byte
read, checked at output byte offset 2. -/
theorem AU_read_ulaw_inplace_eq_copy_witness :
    auC10WState.dec.encoding = AU_ENC_ULAW_8 ∧
    listRead auC10WState.stream (auMaxlen auC10WState) = (RWResult.ok [255, 0], [9]) ∧
    ([255, 0] : List Nat).length ≤ auMaxlen auC10WState ∧
    ([255, 0] : List Nat).length ≠ 0 ∧
    (2 : Nat) < 2 * ([255, 0] : List Nat).length ∧
    (AU_read listRead auC10WState).state.buffer 2 = (expandSpec [255, 0]).getD 2 0 :=
  ⟨rfl, by decide, by decide, by decide, by decide,
    AU_read_ulaw_inplace_eq_copy listRead auC10WState [9] [255, 0]
      (by decide) (by decide) (by decide) (by decide) 2 (by decide)⟩
